import Mathlib

/-!
Verification of the pystachio-smt detection primitives (`algorithms.py`)
and dataset simulators (`simulation.py`).

Modelling conventions:
* A numpy 2-D array is an `Img`: a shape together with a total pixel
  function; the algorithms only ever read in-bounds pixels.
* Python/numpy floats are modelled by exact rationals (`ℚ`).  The one
  place where a float is compared against an integer threshold,
  `distance_map[i,j] <= r_max` with `distance_map[i,j] = sqrt(dx²+dy²)`,
  is modelled on the squares: for the integer magnitudes involved
  IEEE double `sqrt` is exact enough that
  `sqrt(dx²+dy²) ≤ r_max ↔ dx²+dy² ≤ r_max²`, and distinct squared
  distances have distinct float square roots, so a distance value is
  represented faithfully by the natural number `dx²+dy²`.
* Randomness is modelled by explicit oracle arguments: each call of
  `numpy.random.rand` / `normal` / `randint` reads one value of an
  oracle function, and theorems quantify over all oracles.
* A Python run that raises (out-of-range indexing, division by zero
  during normalisation) is modelled by an `Option` result of `none`.
-/

/-- A 2-D pixel grid (a numpy array): a shape plus a total pixel
function.  Only pixels with `i < rows`, `j < cols` are ever read. -/
structure Img (α : Type) where
  rows : Nat
  cols : Nat
  pixel : Nat → Nat → α

/-- Comparison used by `get_distance_list`'s sort: the Python code sorts
by the float distance `x[2]`; sorting by the squared distance is the
same order (see the module comment). -/
def distRel (a b : Int × Int × Nat) : Prop :=
  a.2.2 ≤ b.2.2

instance : DecidableRel distRel := fun a b => Nat.decLe a.2.2 b.2.2

instance : IsTotal (Int × Int × Nat) distRel :=
  ⟨fun a b => Nat.le_total a.2.2 b.2.2⟩

instance : IsTrans (Int × Int × Nat) distRel :=
  ⟨fun _ _ _ h h2 => Nat.le_trans h h2⟩

/-- `get_distance_list(r_max)` from `algorithms.py`: all integer offsets
`(dx, dy) = (i - r_max, j - r_max)` for `i, j ∈ [0, 2r_max]`, kept when
the Euclidean distance is at most `r_max`, sorted by distance.  Python's
`list.sort` is a stable sort; it is modelled by insertion sort, which is
also stable, and no observable behaviour below depends on the order of
offsets with equal distance.  The third component stores the squared
distance `dx² + dy²`, which represents the float `sqrt(dx²+dy²)`. -/
def get_distance_list (r_max : Nat) : List (Int × Int × Nat) :=
  (((List.range (2 * r_max + 1)).flatMap fun i =>
      (List.range (2 * r_max + 1)).map fun j =>
        (((i : Int) - r_max, (j : Int) - r_max,
          (((i : Int) - r_max) ^ 2 + ((j : Int) - r_max) ^ 2).toNat) : Int × Int × Nat)).filter
    fun t => decide (t.2.2 ≤ r_max ^ 2)).insertionSort distRel

/-- The 3×3 neighbourhood slice `img[i-1:i+2, j-1:j+2]` read row-major;
only used at interior pixels `1 ≤ i`, `1 ≤ j`. -/
def nbhd {α : Type} (img : Img α) (i j : Nat) : List α :=
  (List.range 3).flatMap fun di =>
    (List.range 3).map fun dj => img.pixel (i - 1 + di) (j - 1 + dj)

/-- `np.max` of a list; numpy raises on an empty array, modelled by a
default that is never used at the (always non-empty) call sites. -/
def npMax {α : Type} [LinearOrder α] (dflt : α) : List α → α
  | [] => dflt
  | x :: xs => xs.foldl max x

/-- `find_local_maxima(img)` from `algorithms.py`: interior pixels
`1 ≤ i ≤ rows-2`, `1 ≤ j ≤ cols-2` whose value is non-zero and equal to
the maximum of their 3×3 neighbourhood, in row-major scan order. -/
def find_local_maxima {α : Type} [LinearOrder α] [Zero α] [DecidableEq α] (img : Img α) :
    List (Nat × Nat) :=
  (List.range' 1 (img.rows - 2)).flatMap fun i =>
    ((List.range' 1 (img.cols - 2)).filter fun j =>
        decide (img.pixel i j ≠ 0 ∧ npMax 0 (nbhd img i j) = img.pixel i j)).map
      fun j => (i, j)

/-- The inner offset walk of `ultimate_erode` for one foreground pixel
`(i, j)`: the first offset in the distance list that either lands out of
bounds or on a zero mask pixel fixes the distance; if no offset breaks
the loop, the pixel keeps the initial value `0` of `img_dist`. -/
def pixelDist (img : Img Int) (i j : Nat) : List (Int × Int × Nat) → Nat
  | [] => 0
  | t :: rest =>
    if (i : Int) + t.1 < 0 ∨ (i : Int) + t.1 ≥ img.rows ∨
        (j : Int) + t.2.1 < 0 ∨ (j : Int) + t.2.1 ≥ img.cols then
      t.2.2
    else if img.pixel ((i : Int) + t.1).toNat ((j : Int) + t.2.1).toNat = 0 then
      t.2.2
    else
      pixelDist img i j rest

/-- The distance field `img_dist` of `ultimate_erode`: zero-initialised,
each non-zero mask pixel receives its `pixelDist` value. -/
def img_dist (img : Img Int) (dl : List (Int × Int × Nat)) : Img Nat :=
  { rows := img.rows, cols := img.cols,
    pixel := fun i j => if img.pixel i j ≠ 0 then pixelDist img i j dl else 0 }

/-- All coordinates of an image in row-major order (the scan order of
the nested loops in `ultimate_erode`). -/
def allCoords (img : Img Int) : List (Nat × Nat) :=
  (List.range img.rows).flatMap fun i => (List.range img.cols).map fun j => (i, j)

/-- The abort test of `ultimate_erode`: some foreground pixel ends its
offset walk with `img_dist[i,j] == 0`.  The Python loop aborts at the
first such pixel in scan order and returns `[]`; since each pixel's
distance is computed independently and the abort discards everything,
this is observationally the same as the pre-check modelled here. -/
def erodeAborts (img : Img Int) (dl : List (Int × Int × Nat)) : Bool :=
  (allCoords img).any fun c =>
    decide (img.pixel c.1 c.2 ≠ 0) && decide (pixelDist img c.1 c.2 dl = 0)

/-- `ultimate_erode(img, orig)` from `algorithms.py`.  The second
argument `orig` is accepted but never read by the function body, hence
the polymorphic type; the distance list is built with the hard-coded
radius 16. -/
def ultimate_erode {α : Type} (img : Img Int) (orig : α) : List (Nat × Nat) :=
  let distance_list := get_distance_list 16
  if erodeAborts img distance_list then []
  else find_local_maxima (img_dist img distance_list)

/-- Modelled from the spec: the radius-parameterised Ultimate Erode
reference of §4.4, "`ultimate_erode(mask, radius=16)`" — build the
DistanceList for `radius`, walk it per foreground pixel, return `[]` if
any foreground pixel receives distance 0, otherwise the local maxima of
the distance field.  The repository's `ultimate_erode` does not expose
such a parameter; this definition exists to compare against it. -/
def ultimate_erode_radius (img : Img Int) (radius : Nat) : List (Nat × Nat) :=
  let distance_list := get_distance_list radius
  if erodeAborts img distance_list then []
  else find_local_maxima (img_dist img distance_list)

/-- The all-foreground square mask used as a concrete input. -/
def onesImg (n : Nat) : Img Int :=
  { rows := n, cols := n, pixel := fun _ _ => 1 }

/-- Strict row-major order on coordinates: earlier row, or same row and
earlier column. -/
def rowMajorLt (a b : Nat × Nat) : Prop :=
  a.1 < b.1 ∨ (a.1 = b.1 ∧ a.2 < b.2)

/-- `np.sign(q)` for a real (here rational) argument. -/
def npSign (q : ℚ) : Int :=
  if 0 < q then 1 else if q < 0 then -1 else 0

/-- `np.max` of a float array (empty arrays raise in numpy; `fwhm`
rejects the empty list before calling this). -/
def npMaxQ : List ℚ → ℚ
  | [] => 0
  | x :: xs => xs.foldl max x

/-- `np.min` of a float array. -/
def npMinQ : List ℚ → ℚ
  | [] => 0
  | x :: xs => xs.foldl min x

/-- `np.argmax`: the first index holding the maximum value. -/
def npArgmax (l : List ℚ) : Nat := l.indexOf (npMaxQ l)

/-- `np.argmin`: the first index holding the minimum value. -/
def npArgmin (l : List ℚ) : Nat := l.indexOf (npMinQ l)

/-- The leftward-from-index-1 crossing search of `fwhm`:
`while np.sign(data[i]-lev50) == np.sign(data[i-1]-lev50): i += 1`.
The Python loop has no bound; running past the end of the array raises,
modelled by `none`. -/
def leadWalkAux (d : List ℚ) (i : Nat) : Option Nat :=
  if h : i < d.length then
    if npSign (d.getD i 0 - 1 / 2) = npSign (d.getD (i - 1) 0 - 1 / 2) then leadWalkAux d (i + 1)
    else some i
  else none
termination_by d.length - i

/-- The rightward crossing search of `fwhm` starting at the peak:
`while (np.sign(data[i]-lev50) == np.sign(data[i-1]-lev50)) and (i <= N-1): i += 1`.
The sign test reads `data[i]` before the bound test, so a start index
beyond the last element raises (modelled by `none`); otherwise the loop
exits at the first sign change or at `i = N`. -/
def rightWalkAux (d : List ℚ) (N : Nat) (i : Nat) : Option Nat :=
  if h : i < d.length then
    if npSign (d.getD i 0 - 1 / 2) = npSign (d.getD (i - 1) 0 - 1 / 2) ∧ i ≤ N - 1 then
      rightWalkAux d N (i + 1)
    else some i
  else none
termination_by d.length - i

/-- The normalisation step of `fwhm`: `data = data / np.max(data)`. -/
def fwhmNorm (data : List ℚ) : List ℚ :=
  data.map fun v => v / npMaxQ data

/-- The peak-position step of `fwhm`: `np.argmax` of the normalised data
when the first sample is below the half level, else `np.argmin`. -/
def fwhmCentre (data : List ℚ) : Nat :=
  if (fwhmNorm data).getD 0 0 < 1 / 2 then npArgmax (fwhmNorm data) else npArgmin (fwhmNorm data)

/-- `fwhm(data)` from `algorithms.py`, returning `(x_width, extremum_val)`.
`none` models a raised exception: empty input (`np.max` of an empty
array), division by zero during normalisation (the spec declares a flat
profile undefined behaviour), an index beyond the 256-entry `x` array
(`x = np.linspace(0, 255, 256)`, so `x[i] = i` for `i ≤ 255`), or a
crossing walk running out of the array. -/
def fwhm (data : List ℚ) : Option (ℚ × Nat) :=
  if data = [] then none
  else if npMaxQ data = 0 then none
  else
    let d := fwhmNorm data
    let N := d.length - 1
    let c := fwhmCentre data
    if 255 < c then none
    else
      match leadWalkAux d 1 with
      | none => none
      | some i =>
        if 255 < i then none
        else
          let lead_t := ((i - 1 : Nat) : ℚ) +
            (1 / 2 - d.getD (i - 1) 0) / (d.getD i 0 - d.getD (i - 1) 0) *
              ((i : ℚ) - ((i - 1 : Nat) : ℚ))
          match rightWalkAux d N (c + 1) with
          | none => none
          | some k =>
            if k ≠ N then
              if 255 < k then none
              else
                let trail_t := ((k - 1 : Nat) : ℚ) +
                  (1 / 2 - d.getD (k - 1) 0) / (d.getD k 0 - d.getD (k - 1) 0) *
                    ((k : ℚ) - ((k - 1 : Nat) : ℚ))
                some (trail_t - lead_t, c)
            else some (0, c)

/-- One per-frame record of the continuous-bleach simulator (`Spots`
fields touched by the trajectory phase of `simulate`). -/
structure SpotsRec where
  positions : List (ℚ × ℚ)
  traj_num : List Int
  frame : Nat

/-- `np.max` of an integer array (only called on non-empty arrays). -/
def npMaxI : List Int → Int
  | [] => 0
  | x :: xs => xs.foldl max x

/-- One loop iteration of `simulate` (frames `1..num_frames-1`): copy
the previous trajectory ids, take the diffusion draw as the new
positions, and when `bleach_time > 0` redraw position and assign a fresh
trajectory id (`np.max(traj_num) + 1`, recomputed per bleached spot) for
every spot whose uniform draw is below `1 / bleach_time`. -/
def simulate_step (num_spots : Nat) (bleach_time : ℚ) (frame : Nat) (prev : SpotsRec)
    (posDraw : List (ℚ × ℚ)) (bleachDraw : Nat → ℚ) (redraw : Nat → ℚ × ℚ) : SpotsRec :=
  let st : SpotsRec := { frame := frame, traj_num := prev.traj_num, positions := posDraw }
  if 0 < bleach_time then
    ((List.range num_spots).filter fun s => decide (bleachDraw s < 1 / bleach_time)).foldl
      (fun st spot =>
        { st with
          positions := st.positions.set spot (redraw spot),
          traj_num := st.traj_num.set spot (npMaxI st.traj_num + 1) })
      st
  else st

/-- The trajectory phase of `simulate`: the record of frame `k`.
Frame 0 holds the initial uniform position draws and the trajectory ids
the external `Spots` constructor put in the array (`init_traj`); each
later frame is one `simulate_step`.  `posDraw f` is the outcome of that
frame's `random.normal` diffusion draw, `bleachDraw f s` the spot's
uniform bleach draw, `redraw f s` its redrawn position.  The rendering
phase of `simulate` touches neither `traj_num` nor `frame` and is not
modelled. -/
def simulate_spots (num_spots : Nat) (bleach_time : ℚ)
    (init_positions : List (ℚ × ℚ)) (init_traj : List Int)
    (posDraw : Nat → List (ℚ × ℚ)) (bleachDraw : Nat → Nat → ℚ) (redraw : Nat → Nat → ℚ × ℚ) :
    Nat → SpotsRec
  | 0 => { positions := init_positions, traj_num := init_traj, frame := 0 }
  | k + 1 =>
    simulate_step num_spots bleach_time (k + 1)
      (simulate_spots num_spots bleach_time init_positions init_traj posDraw bleachDraw redraw k)
      (posDraw (k + 1)) (bleachDraw (k + 1)) (redraw (k + 1))

/-- One photobleaching round of `simulate_stepwise_bleaching`: for every
spot `i` with a positive molecule count `n`, run `n` Bernoulli trials
(`range(n_mols[i])` is evaluated once, before any decrement) and
decrement once per trial whose draw is below `p`. -/
def bleach_mols (p : ℚ) (draw : Nat → Nat → ℚ) (n_mols : List Int) : List Int :=
  n_mols.mapIdx fun i n =>
    if 0 < n then
      (List.range n.toNat).foldl (fun m j => if draw i j < p then m - 1 else m) n
    else n

/-- The molecule counts of `simulate_stepwise_bleaching` after `k`
bleaching rounds (`draw f i j` is the uniform draw for frame `f`, spot
`i`, trial `j`). -/
def stepwise_mols (p : ℚ) (draw : Nat → Nat → Nat → ℚ) (init : List Int) : Nat → List Int
  | 0 => init
  | k + 1 => bleach_mols p (draw (k + 1)) (stepwise_mols p draw init k)

/-- One per-frame record of the stepwise-bleach simulator (`Spots`
fields touched by `simulate_stepwise_bleaching`). -/
structure StepwiseRec where
  positions : List (ℚ × ℚ)
  traj_num : List Int
  spot_intensity : List ℚ
  frame : Nat

/-- `np.random.randint(low, high)`: an integer uniform on
`[low, high)` — the upper bound is exclusive.  The draw is modelled by
inverse transform of a uniform `u ∈ [0, 1)`:
`low + ⌊u * (high - low)⌋`. -/
def np_randint (low high : Int) (u : ℚ) : Int :=
  low + ⌊u * ((high : ℚ) - (low : ℚ))⌋

/-- The initial molecule counts of `simulate_stepwise_bleaching`: a
fixed configured value per spot when one is given, otherwise one
`np.random.randint(1, max_spot_molecules)` draw per spot. -/
def stepwise_init_mols (num_spots : Nat) (num_spot_molecules : Option Int)
    (max_spot_molecules : Int) (draw : Nat → ℚ) : List Int :=
  match num_spot_molecules with
  | some m => List.replicate num_spots m
  | none => (List.range num_spots).map fun i => np_randint 1 max_spot_molecules (draw i)

/-- The spot-record phase of `simulate_stepwise_bleaching`: the record
of frame `k`.  Frame 0 holds the initial position draws, the external
`Spots` trajectory ids, intensity `Isingle * n_mols`, and — exactly as
the source assigns it — `frame = 1` (`real_spots[0].frame = 1`).  Frame
`k ≥ 1` holds that frame's diffusion draw, the copied trajectory ids,
intensity computed from the molecule counts before that frame's
bleaching round, and `frame = k`. -/
def stepwise_spots (Isingle : ℚ) (p_bleach : ℚ)
    (init_positions : List (ℚ × ℚ)) (init_traj : List Int) (init_mols : List Int)
    (posDraw : Nat → List (ℚ × ℚ)) (molDraw : Nat → Nat → Nat → ℚ) :
    Nat → StepwiseRec
  | 0 =>
    { positions := init_positions, traj_num := init_traj,
      spot_intensity := init_mols.map fun n => Isingle * (n : ℚ), frame := 1 }
  | k + 1 =>
    { positions := posDraw (k + 1),
      traj_num := (stepwise_spots Isingle p_bleach init_positions init_traj init_mols
          posDraw molDraw k).traj_num,
      spot_intensity := (stepwise_mols p_bleach molDraw init_mols k).map
        fun n => Isingle * (n : ℚ),
      frame := k + 1 }

/-! ## Helper lemmas -/

/-- Membership characterisation of `get_distance_list`: every entry is
an in-range offset carrying its own squared distance, filtered to the
disk of radius `r`. -/
theorem mem_get_distance_list {r : Nat} {t : Int × Int × Nat}
    (ht : t ∈ get_distance_list r) :
    -(r : Int) ≤ t.1 ∧ t.1 ≤ r ∧ -(r : Int) ≤ t.2.1 ∧ t.2.1 ≤ r ∧
      (t.2.2 : Int) = t.1 ^ 2 + t.2.1 ^ 2 ∧ t.2.2 ≤ r ^ 2 := by
  rw [get_distance_list, List.mem_insertionSort, List.mem_filter] at ht
  obtain ⟨hmem, hle⟩ := ht
  simp only [List.mem_flatMap, List.mem_map, List.mem_range] at hmem
  obtain ⟨i, hi, j, hj, rfl⟩ := hmem
  simp only [bind_pure_comp, List.map_eq_map, List.mem_map, List.mem_range] at hj
  obtain ⟨a, ha, rfl⟩ := hj
  dsimp only
  simp only [decide_eq_true_eq] at hle
  refine ⟨by omega, by omega, by omega, by omega, ?_, hle⟩
  exact Int.toNat_of_nonneg (by positivity)

theorem le_foldl_max {α : Type} [LinearOrder α] (l : List α) (d : α) : d ≤ l.foldl max d := by
  induction l generalizing d with
  | nil => exact le_rfl
  | cons x xs ih => exact le_trans (le_max_left d x) (ih (max d x))

theorem mem_le_foldl_max {α : Type} [LinearOrder α] {x : α} (l : List α) (d : α) (hx : x ∈ l) :
    x ≤ l.foldl max d := by
  induction l generalizing d with
  | nil => cases hx
  | cons y ys ih =>
    rcases List.mem_cons.mp hx with rfl | h
    · exact le_trans (le_max_right d x) (le_foldl_max ys (max d x))
    · exact ih (max d y) h

theorem foldl_max_le {α : Type} [LinearOrder α] (l : List α) (d c : α) (hd : d ≤ c)
    (h : ∀ x ∈ l, x ≤ c) : l.foldl max d ≤ c := by
  induction l generalizing d with
  | nil => exact hd
  | cons y ys ih =>
    exact ih (max d y) (max_le hd (h y (List.mem_cons_self _ _)))
      (fun x hx => h x (List.mem_cons_of_mem _ hx))

/-- `np.max` of a non-empty list equals `c` exactly when `c` is an upper
bound (given that `c` is in the list). -/
theorem npMax_eq_iff {α : Type} [LinearOrder α] (dflt c : α) (l : List α) (hc : c ∈ l) :
    npMax dflt l = c ↔ ∀ x ∈ l, x ≤ c := by
  cases l with
  | nil => cases hc
  | cons y ys =>
    rw [npMax]
    constructor
    · intro he x hx
      rcases List.mem_cons.mp hx with rfl | h
      · rw [← he]; exact le_foldl_max ys x
      · rw [← he]; exact mem_le_foldl_max ys y h
    · intro hall
      apply le_antisymm
      · exact foldl_max_le ys y c (hall y (List.mem_cons_self _ _))
          (fun x hx => hall x (List.mem_cons_of_mem _ hx))
      · rcases List.mem_cons.mp hc with rfl | h
        · exact le_foldl_max ys c
        · exact mem_le_foldl_max ys y h

theorem mem_nbhd {α : Type} (img : Img α) (i j : Nat) (x : α) :
    x ∈ nbhd img i j ↔ ∃ di < 3, ∃ dj < 3, img.pixel (i - 1 + di) (j - 1 + dj) = x := by
  simp [nbhd, List.mem_flatMap, List.mem_map, List.mem_range]

theorem center_mem_nbhd {α : Type} (img : Img α) (i j : Nat) (hi : 1 ≤ i) (hj : 1 ≤ j) :
    img.pixel i j ∈ nbhd img i j := by
  rw [mem_nbhd]
  refine ⟨1, by omega, 1, by omega, ?_⟩
  rw [show i - 1 + 1 = i from by omega, show j - 1 + 1 = j from by omega]

theorem pairwise_rowMajor (g : Nat → List Nat) (hg : ∀ i, (g i).Pairwise (· < ·)) :
    ∀ (m s : Nat),
      ((List.range' s m).flatMap fun i => (g i).map fun j => (i, j)).Pairwise rowMajorLt
  | 0, s => by simp
  | m + 1, s => by
    rw [List.range'_succ, List.flatMap_cons, List.pairwise_append]
    refine ⟨List.pairwise_map.mpr ((hg s).imp fun h => Or.inr ⟨rfl, h⟩),
      pairwise_rowMajor g hg m (s + 1), ?_⟩
    rintro a ha b hb
    obtain ⟨j, _, rfl⟩ := List.mem_map.mp ha
    obtain ⟨i', hi', hb2⟩ := List.mem_flatMap.mp hb
    obtain ⟨j', _, rfl⟩ := List.mem_map.mp hb2
    have : s + 1 ≤ i' := (List.mem_range'_1.mp hi').1
    exact Or.inl (by omega)

/-- A foreground pixel for which no offset of the distance list lands
out of bounds or on a background pixel keeps the initial distance 0. -/
theorem pixelDist_eq_zero (img : Img Int) (i j : Nat) (dl : List (Int × Int × Nat))
    (h : ∀ t ∈ dl,
        (0 ≤ (i : Int) + t.1 ∧ (i : Int) + t.1 < img.rows ∧
          0 ≤ (j : Int) + t.2.1 ∧ (j : Int) + t.2.1 < img.cols) ∧
        img.pixel ((i : Int) + t.1).toNat ((j : Int) + t.2.1).toNat ≠ 0) :
    pixelDist img i j dl = 0 := by
  induction dl with
  | nil => rfl
  | cons t rest ih =>
    obtain ⟨⟨h1, h2, h3, h4⟩, h5⟩ := h t (List.mem_cons_self _ _)
    rw [pixelDist, if_neg (by omega), if_neg h5]
    exact ih fun u hu => h u (List.mem_cons_of_mem _ hu)

theorem mem_allCoords (img : Img Int) (i j : Nat) (hi : i < img.rows) (hj : j < img.cols) :
    (i, j) ∈ allCoords img := by
  rw [allCoords]
  simp only [List.mem_flatMap, List.mem_map, List.mem_range]
  exact ⟨i, hi, j, hj, rfl⟩

theorem foldl_bleach_le (c : Nat → Prop) [DecidablePred c] (l : List Nat) (n : Int) :
    l.foldl (fun m j => if c j then m - 1 else m) n ≤ n := by
  induction l generalizing n with
  | nil => exact le_rfl
  | cons x xs ih =>
    rw [List.foldl_cons]
    calc xs.foldl (fun m j => if c j then m - 1 else m) (if c x then n - 1 else n)
        ≤ (if c x then n - 1 else n) := ih _
      _ ≤ n := by split <;> omega

theorem foldl_bleach_ge (c : Nat → Prop) [DecidablePred c] (l : List Nat) (n : Int) :
    n - l.length ≤ l.foldl (fun m j => if c j then m - 1 else m) n := by
  induction l generalizing n with
  | nil => simp
  | cons x xs ih =>
    rw [List.foldl_cons]
    calc n - ((x :: xs).length : Int) ≤ (if c x then n - 1 else n) - xs.length := by
          rw [List.length_cons]
          split <;> push_cast <;> omega
      _ ≤ xs.foldl (fun m j => if c j then m - 1 else m) (if c x then n - 1 else n) := ih _

theorem foldl_bleach_id (c : Nat → Prop) [DecidablePred c] (l : List Nat) (n : Int)
    (h : ∀ j ∈ l, ¬ c j) :
    l.foldl (fun m j => if c j then m - 1 else m) n = n := by
  induction l generalizing n with
  | nil => rfl
  | cons x xs ih =>
    rw [List.foldl_cons, if_neg (h x (List.mem_cons_self _ _))]
    exact ih _ fun j hj => h j (List.mem_cons_of_mem _ hj)

/-- One bleaching round never increases any spot's molecule count. -/
theorem bleach_mols_le (p : ℚ) (dr : Nat → Nat → ℚ) (l : List Int) (i : Nat) :
    (bleach_mols p dr l).getD i 0 ≤ l.getD i 0 := by
  rw [bleach_mols, List.getD_eq_getElem?_getD, List.getD_eq_getElem?_getD,
    List.getElem?_mapIdx]
  rcases lt_or_ge i l.length with h | h
  · rw [List.getElem?_eq_getElem h]
    simp only [Option.map_some', Option.getD_some]
    split
    · exact foldl_bleach_le _ _ _
    · exact le_rfl
  · rw [List.getElem?_eq_none h]
    simp

/-- One bleaching round keeps all molecule counts non-negative: a spot
with count `n > 0` runs exactly `n` trials, each decrementing at most
once. -/
theorem bleach_mols_nonneg (p : ℚ) (dr : Nat → Nat → ℚ) (l : List Int)
    (h : ∀ x ∈ l, 0 ≤ x) : ∀ x ∈ bleach_mols p dr l, 0 ≤ x := by
  intro x hx
  rw [bleach_mols, List.mem_mapIdx] at hx
  obtain ⟨i, hi, heq⟩ := hx
  rw [← heq]
  split
  · rename_i hpos
    have hge := foldl_bleach_ge (fun j => dr i j < p) (List.range l[i].toNat) l[i]
    rw [List.length_range] at hge
    rw [Int.toNat_of_nonneg (le_of_lt hpos)] at hge
    omega
  · exact h _ (List.getElem_mem hi)

/-- With bleach probability 0 and draws from `[0, 1)`, a bleaching
round changes nothing: no draw is below 0. -/
theorem bleach_mols_id (dr : Nat → Nat → ℚ) (l : List Int) (hdr : ∀ i j, 0 ≤ dr i j) :
    bleach_mols 0 dr l = l := by
  apply List.ext_getElem?
  intro i
  rw [bleach_mols, List.getElem?_mapIdx]
  rcases lt_or_ge i l.length with h | h
  · rw [List.getElem?_eq_getElem h]
    simp only [Option.map_some']
    congr 1
    split
    · exact foldl_bleach_id _ _ _ fun j _ => not_lt.mpr (hdr i j)
    · rfl
  · rw [List.getElem?_eq_none h]
    rfl

theorem stepwise_mols_nonneg (p : ℚ) (draw : Nat → Nat → Nat → ℚ) (init : List Int)
    (hinit : ∀ x ∈ init, 0 ≤ x) (k : Nat) :
    ∀ x ∈ stepwise_mols p draw init k, 0 ≤ x := by
  induction k with
  | zero => exact hinit
  | succ k ih => exact bleach_mols_nonneg _ _ _ ih

theorem stepwise_mols_const (draw : Nat → Nat → Nat → ℚ) (init : List Int)
    (hdraw : ∀ f i j, 0 ≤ draw f i j) (k : Nat) :
    stepwise_mols 0 draw init k = init := by
  induction k with
  | zero => rfl
  | succ k ih =>
    rw [stepwise_mols, ih]
    exact bleach_mols_id _ _ fun i j => hdraw (k + 1) i j

/-- A `randint(1, m)` draw lies in `[1, m-1]`: the upper bound of
numpy's `randint` is exclusive. -/
theorem np_randint_bounds (m : Int) (hm : 2 ≤ m) (u : ℚ) (hu0 : 0 ≤ u) (hu1 : u < 1) :
    1 ≤ np_randint 1 m u ∧ np_randint 1 m u ≤ m - 1 := by
  rw [np_randint]
  have hpos : (0 : ℚ) < (m : ℚ) - 1 := by
    have : (2 : ℚ) ≤ (m : ℚ) := by exact_mod_cast hm
    linarith
  have hcast : ((1 : Int) : ℚ) = (1 : ℚ) := by norm_num
  rw [hcast]
  constructor
  · have h0 : (0 : ℚ) ≤ u * ((m : ℚ) - 1) := mul_nonneg hu0 (le_of_lt hpos)
    have := Int.floor_nonneg.mpr h0
    omega
  · have hlt : u * ((m : ℚ) - 1) < (m : ℚ) - 1 := by
      calc u * ((m : ℚ) - 1) < 1 * ((m : ℚ) - 1) := mul_lt_mul_of_pos_right hu1 hpos
        _ = (m : ℚ) - 1 := one_mul _
    have hfl : ⌊u * ((m : ℚ) - 1)⌋ < m - 1 := by
      have h2 : (⌊u * ((m : ℚ) - 1)⌋ : ℚ) < (m : ℚ) - 1 := lt_of_le_of_lt (Int.floor_le _) hlt
      have h3 : (⌊u * ((m : ℚ) - 1)⌋ : ℚ) < ((m - 1 : Int) : ℚ) := by push_cast; linarith
      exact_mod_cast h3
    omega

/-- Evaluation of `np.max` on the demonstration profile. -/
theorem demo_npMaxQ : npMaxQ [(0 : ℚ), 1, 1] = 1 := by
  norm_num [npMaxQ, List.foldl, max_def]

/-- Evaluation of the normalisation on the demonstration profile. -/
theorem demo_fwhmNorm : fwhmNorm [(0 : ℚ), 1, 1] = [0, 1, 1] := by
  norm_num [fwhmNorm, demo_npMaxQ]

/-- Evaluation of the peak position on the demonstration profile. -/
theorem demo_fwhmCentre : fwhmCentre [(0 : ℚ), 1, 1] = 1 := by
  have h01 : ((0 : ℚ) == 1) = false := by
    rw [beq_eq_false_iff_ne]
    norm_num
  have h11 : ((1 : ℚ) == 1) = true := by
    rw [beq_iff_eq]
  rw [fwhmCentre, demo_fwhmNorm]
  norm_num [npArgmax, demo_npMaxQ, List.indexOf, List.findIdx, List.findIdx.go,
    demo_fwhmNorm, h01, h11]

/-- The leading-edge walk on the demonstration profile finds the
crossing at index 1. -/
theorem demo_leadWalk : leadWalkAux [(0 : ℚ), 1, 1] 1 = some 1 := by
  rw [leadWalkAux]
  norm_num [npSign, List.getD]

/-- The trailing-edge walk on the demonstration profile exits at the
bound `N = 2` without a sign change. -/
theorem demo_rightWalk : rightWalkAux [(0 : ℚ), 1, 1] 2 2 = some 2 := by
  rw [rightWalkAux]
  norm_num [npSign, List.getD]

/-! ## Claim theorems -/

/-- Claim C1: for every binary mask, if during the ultimate-erode
distance computation some foreground (non-zero) pixel receives distance
value 0 — that is, no out-of-bounds or zero-valued offset is found
within the search radius — then `ultimate_erode` returns the empty list
for the whole image, rather than raising an error or returning partial
results. -/
theorem ultimate_erode_no_background {α : Type} (img : Img Int) (orig : α) (i j : Nat)
    (hi : i < img.rows) (hj : j < img.cols) (hfg : img.pixel i j ≠ 0)
    (hnobg : ∀ t ∈ get_distance_list 16,
        (0 ≤ (i : Int) + t.1 ∧ (i : Int) + t.1 < img.rows ∧
          0 ≤ (j : Int) + t.2.1 ∧ (j : Int) + t.2.1 < img.cols) ∧
        img.pixel ((i : Int) + t.1).toNat ((j : Int) + t.2.1).toNat ≠ 0) :
    ultimate_erode img orig = [] := by
  have habort : erodeAborts img (get_distance_list 16) = true := by
    rw [erodeAborts, List.any_eq_true]
    refine ⟨(i, j), mem_allCoords img i j hi hj, ?_⟩
    rw [Bool.and_eq_true, decide_eq_true_eq, decide_eq_true_eq]
    exact ⟨hfg, pixelDist_eq_zero img i j _ hnobg⟩
  rw [ultimate_erode]
  simp only [habort, if_true]

/-- Witness for claim C1: on the all-foreground 33×33 mask the centre
pixel (16, 16) finds neither an out-of-bounds offset nor a background
pixel within radius 16, and `ultimate_erode` returns `[]`. -/
theorem ultimate_erode_no_background_witness :
    ultimate_erode (onesImg 33) (0 : Nat) = [] :=
  ultimate_erode_no_background (onesImg 33) 0 16 16 (by decide) (by decide) (by decide)
    (fun t ht => by
      obtain ⟨h1, h2, h3, h4, _, _⟩ := mem_get_distance_list ht
      constructor
      · show (0 : Int) ≤ 16 + t.1 ∧ (16 : Int) + t.1 < ((33 : Nat) : Int) ∧
          (0 : Int) ≤ 16 + t.2.1 ∧ (16 : Int) + t.2.1 < ((33 : Nat) : Int)
        omega
      · show (1 : Int) ≠ 0
        exact one_ne_zero)

/-- Claim C2: for every radius `r ≥ 0`, every triple `(dx, dy, d)` of
`get_distance_list r` has `dx, dy ∈ [−r, r]`, represents the distance
`sqrt(dx² + dy²)` (the stored component is its square), that distance is
at most `r`, and the list is sorted non-decreasingly by distance. -/
theorem get_distance_list_spec (r : Nat) :
    (∀ t ∈ get_distance_list r,
        -(r : Int) ≤ t.1 ∧ t.1 ≤ r ∧ -(r : Int) ≤ t.2.1 ∧ t.2.1 ≤ r ∧
          ((t.2.2 : Int) = t.1 ^ 2 + t.2.1 ^ 2) ∧
          Real.sqrt ((t.1 : ℝ) ^ 2 + (t.2.1 : ℝ) ^ 2) ≤ r)
    ∧ (get_distance_list r).Pairwise fun a b =>
        Real.sqrt ((a.1 : ℝ) ^ 2 + (a.2.1 : ℝ) ^ 2) ≤
          Real.sqrt ((b.1 : ℝ) ^ 2 + (b.2.1 : ℝ) ^ 2) := by
  have key : ∀ t ∈ get_distance_list r,
      ((t.2.2 : ℝ) = (t.1 : ℝ) ^ 2 + (t.2.1 : ℝ) ^ 2) := by
    intro t ht
    have h := (mem_get_distance_list ht).2.2.2.2.1
    exact_mod_cast h
  constructor
  · intro t ht
    obtain ⟨h1, h2, h3, h4, h5, h6⟩ := mem_get_distance_list ht
    refine ⟨h1, h2, h3, h4, h5, ?_⟩
    rw [← key t ht]
    have hr : (t.2.2 : ℝ) ≤ ((r : ℝ)) ^ 2 := by exact_mod_cast h6
    calc Real.sqrt (t.2.2 : ℝ) ≤ Real.sqrt ((r : ℝ) ^ 2) := Real.sqrt_le_sqrt hr
      _ = r := Real.sqrt_sq (by positivity)
  · have hs : (get_distance_list r).Pairwise distRel := by
      rw [get_distance_list]
      exact List.sorted_insertionSort distRel _
    refine hs.imp_of_mem ?_
    intro a b ha hb hab
    rw [← key a ha, ← key b hb]
    exact Real.sqrt_le_sqrt (by exact_mod_cast hab)

/-- Claim C3: for every 2-D field, `find_local_maxima` returns exactly
the interior coordinates `(i, j)` — `1 ≤ i ≤ rows−2`,
`1 ≤ j ≤ cols−2`, border pixels never included — whose value is
non-zero and at least every value of their 3×3 neighbourhood, listed in
row-major scan order. -/
theorem find_local_maxima_spec {α : Type} [LinearOrder α] [Zero α] [DecidableEq α]
    (img : Img α) :
    (∀ i j : Nat, ((i, j) ∈ find_local_maxima img ↔
        1 ≤ i ∧ i ≤ img.rows - 2 ∧ 1 ≤ j ∧ j ≤ img.cols - 2 ∧ img.pixel i j ≠ 0 ∧
          ∀ di < 3, ∀ dj < 3, img.pixel (i - 1 + di) (j - 1 + dj) ≤ img.pixel i j))
    ∧ (find_local_maxima img).Pairwise rowMajorLt := by
  constructor
  · intro i j
    rw [find_local_maxima]
    simp only [List.mem_flatMap, List.mem_map, List.mem_filter, List.mem_range'_1,
      decide_eq_true_eq, Prod.mk.injEq]
    constructor
    · rintro ⟨i', ⟨hi1, hi2⟩, j', ⟨⟨hj1, hj2⟩, hnz, hmax⟩, rfl, rfl⟩
      refine ⟨hi1, by omega, hj1, by omega, hnz, ?_⟩
      intro di hdi dj hdj
      exact (npMax_eq_iff 0 (img.pixel i' j') (nbhd img i' j')
          (center_mem_nbhd img i' j' hi1 hj1)).mp hmax _
        ((mem_nbhd img i' j' _).mpr ⟨di, hdi, dj, hdj, rfl⟩)
    · rintro ⟨hi1, hi2, hj1, hj2, hnz, hall⟩
      refine ⟨i, ⟨hi1, by omega⟩, j, ⟨⟨hj1, by omega⟩, hnz, ?_⟩, rfl, rfl⟩
      apply (npMax_eq_iff 0 (img.pixel i j) (nbhd img i j)
          (center_mem_nbhd img i j hi1 hj1)).mpr
      intro x hx
      obtain ⟨di, hdi, dj, hdj, rfl⟩ := (mem_nbhd img i j x).mp hx
      exact hall di hdi dj hdj
  · rw [find_local_maxima]
    exact pairwise_rowMajor _
      (fun i => (List.pairwise_lt_range' 1 (img.cols - 2)).sublist (List.filter_sublist _)) _ _

/-- Claim C4: for every profile on which `fwhm`'s rightward walk from
the peak index reaches the second-to-last index bound without finding a
sign change of `(sample − 0.5)` — the walk returns the bound `N` — the
function returns normally with width 0 together with the peak position,
a defined outcome and not an error. -/
theorem fwhm_truncated_right (data : List ℚ) (i0 : Nat)
    (hne : data ≠ []) (hmax : npMaxQ data ≠ 0)
    (hc : fwhmCentre data ≤ 255)
    (hlead : leadWalkAux (fwhmNorm data) 1 = some i0) (hi0 : i0 ≤ 255)
    (hright : rightWalkAux (fwhmNorm data) ((fwhmNorm data).length - 1) (fwhmCentre data + 1)
      = some ((fwhmNorm data).length - 1)) :
    fwhm data = some (0, fwhmCentre data) := by
  rw [fwhm]
  simp only [if_neg hne, if_neg hmax, if_neg (show ¬ 255 < fwhmCentre data by omega), hlead,
    if_neg (show ¬ 255 < i0 by omega), hright]
  simp

/-- Witness for claim C4: the profile `[0, 1, 1]` has its peak at index
1 and stays at the maximum up to the right edge, so the rightward walk
exits at the bound and `fwhm` returns width 0 with the peak position. -/
theorem fwhm_truncated_right_witness :
    fwhm [(0 : ℚ), 1, 1] = some (0, fwhmCentre [(0 : ℚ), 1, 1]) :=
  fwhm_truncated_right [0, 1, 1] 1 (by simp) (by rw [demo_npMaxQ]; norm_num)
    (by rw [demo_fwhmCentre]; norm_num)
    (by rw [demo_fwhmNorm]; exact demo_leadWalk) (by norm_num)
    (by rw [demo_fwhmNorm, demo_fwhmCentre]; exact demo_rightWalk)

/-- Claim C5: in the continuous-bleach simulator with
`bleach_time ≤ 0`, for every outcome of the random draws the trajectory
ids of every frame equal those of frame 0: the bleaching branch is never
taken. -/
theorem simulate_no_bleach_traj (num_spots : Nat) (bleach_time : ℚ) (hb : bleach_time ≤ 0)
    (init_positions : List (ℚ × ℚ)) (init_traj : List Int)
    (posDraw : Nat → List (ℚ × ℚ)) (bleachDraw : Nat → Nat → ℚ) (redraw : Nat → Nat → ℚ × ℚ)
    (k : Nat) :
    (simulate_spots num_spots bleach_time init_positions init_traj posDraw bleachDraw
        redraw k).traj_num
      = (simulate_spots num_spots bleach_time init_positions init_traj posDraw bleachDraw
          redraw 0).traj_num := by
  induction k with
  | zero => rfl
  | succ k ih =>
    simp only [simulate_spots, simulate_step, if_neg (not_lt.mpr hb)]
    simpa using ih

/-- Witness for claim C5: two spots, `bleach_time = 0`, concrete draw
oracles; the trajectory ids at frame 3 equal those at frame 0. -/
theorem simulate_no_bleach_traj_witness :
    (simulate_spots 2 0 [(0, 0), (1, 1)] [0, 1] (fun _ => [(0, 0), (1, 1)])
        (fun _ _ => 0) (fun _ _ => (0, 0)) 3).traj_num
      = (simulate_spots 2 0 [(0, 0), (1, 1)] [0, 1] (fun _ => [(0, 0), (1, 1)])
          (fun _ _ => 0) (fun _ _ => (0, 0)) 0).traj_num :=
  simulate_no_bleach_traj 2 0 le_rfl [(0, 0), (1, 1)] [0, 1] (fun _ => [(0, 0), (1, 1)])
    (fun _ _ => 0) (fun _ _ => (0, 0)) 3

/-- Claim C6: in the stepwise-bleach simulator, for every spot, frame
transition and outcome of the draws, the molecule count never increases
and never becomes negative; with bleach probability 0 (and draws from
`[0, 1)`, as `numpy.random.rand` produces) every count stays equal to
its initial ground-truth value for all frames. -/
theorem stepwise_mols_invariant (p : ℚ) (draw : Nat → Nat → Nat → ℚ) (init : List Int)
    (hinit : ∀ x ∈ init, 0 ≤ x) (hdraw : ∀ f i j, 0 ≤ draw f i j) (k : Nat) :
    (∀ i : Nat, (stepwise_mols p draw init (k + 1)).getD i 0
        ≤ (stepwise_mols p draw init k).getD i 0)
    ∧ (∀ x ∈ stepwise_mols p draw init k, 0 ≤ x)
    ∧ (p = 0 → stepwise_mols p draw init k = init) :=
  ⟨fun i => bleach_mols_le p (draw (k + 1)) (stepwise_mols p draw init k) i,
    stepwise_mols_nonneg p draw init hinit k,
    fun hp => by subst hp; exact stepwise_mols_const draw init hdraw k⟩

/-- Witness for claim C6: two spots with counts `[2, 1]`, probability 0
and the constant-zero draw oracle, checked at frame 1. -/
theorem stepwise_mols_invariant_witness :
    (∀ i : Nat, (stepwise_mols 0 (fun _ _ _ => 0) [2, 1] 2).getD i 0
        ≤ (stepwise_mols 0 (fun _ _ _ => 0) [2, 1] 1).getD i 0)
    ∧ (∀ x ∈ stepwise_mols 0 (fun _ _ _ => 0) [2, 1] 1, 0 ≤ x)
    ∧ ((0 : ℚ) = 0 → stepwise_mols 0 (fun _ _ _ => 0) [2, 1] 1 = [2, 1]) :=
  stepwise_mols_invariant 0 (fun _ _ _ => 0) [2, 1]
    (by
      intro x hx
      rcases List.mem_cons.mp hx with rfl | hx
      · omega
      · rcases List.mem_cons.mp hx with rfl | hx
        · omega
        · cases hx)
    (fun _ _ _ => le_rfl) 1

/-- Claim C7 (divergence): the claim says each record's stored frame
index equals its position in the sequence for both simulator variants,
but `simulate_stepwise_bleaching` stores frame index 1 into record 0
(`real_spots[0].frame = 1` in the source), shown here on a concrete
instance of the embedded record sequence. -/
theorem stepwise_frame_zero_is_one :
    (stepwise_spots 1 0 [(0, 0)] [0] [1] (fun _ => [(0, 0)]) (fun _ _ _ => 0) 0).frame = 1
    ∧ (1 : Nat) ≠ 0 :=
  ⟨rfl, one_ne_zero⟩

/-- Claim C8 (amended): when no fixed molecule count is configured, each
spot's initial count is drawn uniformly from the inclusive range
`[1, max_spot_molecules − 1]` — numpy's `randint` excludes its upper
bound — and every value of that range is attainable while none outside
it is. -/
theorem stepwise_init_mols_range (m : Int) (hm : 2 ≤ m) :
    (∀ (n : Nat) (draw : Nat → ℚ), (∀ s, 0 ≤ draw s ∧ draw s < 1) →
        ∀ x ∈ stepwise_init_mols n none m draw, 1 ≤ x ∧ x ≤ m - 1)
    ∧ ∀ v : Int, 1 ≤ v → v ≤ m - 1 →
        ∃ u : ℚ, 0 ≤ u ∧ u < 1 ∧ np_randint 1 m u = v := by
  have hpos : (0 : ℚ) < (m : ℚ) - 1 := by
    have : (2 : ℚ) ≤ (m : ℚ) := by exact_mod_cast hm
    linarith
  constructor
  · intro n draw hdraw x hx
    rw [stepwise_init_mols] at hx
    simp only [List.mem_map, List.mem_range] at hx
    obtain ⟨i, _, rfl⟩ := hx
    exact np_randint_bounds m hm (draw i) (hdraw i).1 (hdraw i).2
  · intro v hv1 hv2
    refine ⟨((v : ℚ) - 1) / ((m : ℚ) - 1), ?_, ?_, ?_⟩
    · apply div_nonneg _ (le_of_lt hpos)
      have : (1 : ℚ) ≤ (v : ℚ) := by exact_mod_cast hv1
      linarith
    · rw [div_lt_one hpos]
      have : (v : ℚ) ≤ (m : ℚ) - 1 := by
        have h2 : ((v : Int) : ℚ) ≤ ((m - 1 : Int) : ℚ) := by exact_mod_cast hv2
        push_cast at h2
        linarith
      linarith
    · rw [np_randint]
      have hne : (m : ℚ) - 1 ≠ 0 := ne_of_gt hpos
      have hmul : ((v : ℚ) - 1) / ((m : ℚ) - 1) * ((m : ℚ) - ((1 : Int) : ℚ))
          = (v : ℚ) - 1 := by
        push_cast
        field_simp
      rw [hmul]
      have hv : ((v : ℚ) - 1) = ((v - 1 : Int) : ℚ) := by push_cast; ring
      rw [hv, Int.floor_intCast]
      omega

/-- Witness for claim C8 (amended): with `max_spot_molecules = 3` the
initial counts lie in `[1, 2]` and both values are attainable. -/
theorem stepwise_init_mols_range_witness :
    ((∀ (n : Nat) (draw : Nat → ℚ), (∀ s, 0 ≤ draw s ∧ draw s < 1) →
        ∀ x ∈ stepwise_init_mols n none 3 draw, 1 ≤ x ∧ x ≤ 3 - 1)
    ∧ ∀ v : Int, 1 ≤ v → v ≤ 3 - 1 →
        ∃ u : ℚ, 0 ≤ u ∧ u < 1 ∧ np_randint 1 3 u = v) :=
  stepwise_init_mols_range 3 (by norm_num)

/-- Counterexample for claim C8 as stated: with
`max_spot_molecules = 2` the value 2 — the claimed inclusive upper
bound — is not a possible initial molecule count for any uniform draw
`u ∈ [0, 1)`. -/
theorem stepwise_init_mols_misses_max :
    ¬ ∃ u : ℚ, 0 ≤ u ∧ u < 1 ∧ stepwise_init_mols 1 none 2 (fun _ => u) = [2] := by
  rintro ⟨u, h0, h1, he⟩
  rw [stepwise_init_mols] at he
  simp only [List.range_succ, List.range_zero, List.nil_append, List.map_cons, List.map_nil,
    List.cons.injEq, and_true] at he
  rw [np_randint] at he
  have hu : u * (((2 : Int) : ℚ) - ((1 : Int) : ℚ)) = u := by push_cast; ring
  rw [hu] at he
  have : ⌊u⌋ = 0 := Int.floor_eq_zero_iff.mpr ⟨h0, h1⟩
  omega

/-- Claim C9 (amended): `ultimate_erode`'s second parameter is the
original image, which the body never reads — it is not a radius and
cannot change the search radius; the radius is fixed at 16 internally,
so for every mask and every second argument the result equals the
radius-16 instance of the parameterised reference. -/
theorem ultimate_erode_fixed_radius {α : Type} (img : Img Int) (orig : α) :
    ultimate_erode img orig = ultimate_erode_radius img 16 := rfl

set_option maxRecDepth 400000 in
/-- Counterexample for claim C9 as stated: the second argument does not
act as a caller-settable radius.  On the all-foreground 3×3 mask with
"radius" 1 the radius-1 reference aborts (no background within distance
1 of the centre) and returns `[]`, while `ultimate_erode` still searches
with radius 16 and returns the centre. -/
theorem ultimate_erode_radius_not_settable :
    ¬ ∀ (img : Img Int) (r : Nat), ultimate_erode img r = ultimate_erode_radius img r := by
  intro h
  have h3 := h (onesImg 3) 1
  rw [show ultimate_erode (onesImg 3) (1 : Nat) = [(1, 1)] from by decide,
    show ultimate_erode_radius (onesImg 3) 1 = [] from by decide] at h3
  exact List.cons_ne_nil _ _ h3

/-- Claim C10: for every mask and any two values of the second argument
(of any types), `ultimate_erode` returns identical results — the result
is a function of the mask alone, since the body never reads `orig`. -/
theorem ultimate_erode_ignores_second_argument {α β : Type} (img : Img Int) (o1 : α) (o2 : β) :
    ultimate_erode img o1 = ultimate_erode img o2 := rfl
